import Mathlib

/-
Verification of the kb-ai-service retrieval core
(`app/services/embedding_service.py`, `app/services/ai_service.py`,
`app/services/search_service.py`).

Text is embedded as `List Char`; Python floats are embedded as exact
rationals (`ℚ`), except cosine similarity where `np.linalg.norm` takes a
real square root and the embedding uses `ℝ`.  Python string slices,
`str.rfind` and `str.find` are embedded with Python's index semantics
(negative indices count from the end, bounds clamp to the string).
The `while` loop of `chunk_text` is embedded with explicit fuel: a run
that returns `none` for every fuel is a run that does not terminate.
-/

abbrev Chars := List Char

/-- Python `str.lower`, character by character. -/
def lowerStr (s : Chars) : Chars := s.map Char.toLower

/-- Python `needle in hay` substring containment. -/
def containsSub (hay needle : Chars) : Bool := decide (needle <:+: hay)

/-- Python `str.strip`: drop whitespace from both ends. -/
def strip (l : Chars) : Chars :=
  ((l.dropWhile Char.isWhitespace).reverse.dropWhile Char.isWhitespace).reverse

/-- One knowledge-base search hit as the answer flow reads it: its `title`
and provider-supplied relevance `score` (`KBSearchResult` fields used by
`ai_service.py`). -/
structure KBSearchResult where
  title : String
  score : ℚ
deriving DecidableEq

/-- The fixed uncertainty-phrase list of `AIService._calculate_confidence`. -/
def uncertainty_phrases : List Chars :=
  ["i don't know".toList, "not sure".toList, "unclear".toList, "might be".toList]

/-- The `for phrase in uncertainty_phrases: if phrase in response_lower:
confidence -= 0.2; break` loop of `_calculate_confidence`: the amount
subtracted (the `break` makes at most one subtraction). -/
def uncertaintyPenalty : List Chars → Chars → ℚ
  | [], _ => 0
  | p :: ps, response_lower =>
    if containsSub response_lower p then 0.2 else uncertaintyPenalty ps response_lower

/-- `AIService._calculate_confidence(response, sources)`. -/
def _calculate_confidence (response : Chars) (sources : List KBSearchResult) : ℚ :=
  let confidence : ℚ := 0.5
  let confidence := if 50 < response.length then confidence + 0.1 else confidence
  let confidence := if 100 < response.length then confidence + 0.1 else confidence
  let confidence :=
    if sources ≠ [] then
      confidence + (sources.map KBSearchResult.score).sum / (sources.length : ℚ) * 0.3
    else confidence
  let confidence := confidence - uncertaintyPenalty uncertainty_phrases (lowerStr response)
  max 0 (min 1 confidence)

/-- The confidence formula as the spec words it, one closed-form expression,
to be compared with `_calculate_confidence`. -/
def confidenceSpec (response : Chars) (sources : List KBSearchResult) : ℚ :=
  max 0 (min 1 (0.5
    + (if 50 < response.length then 0.1 else 0)
    + (if 100 < response.length then 0.1 else 0)
    + (if sources ≠ [] then
        (sources.map KBSearchResult.score).sum / (sources.length : ℚ) * 0.3 else 0)
    - (if uncertainty_phrases.any (fun p => containsSub (lowerStr response) p)
       then 0.2 else 0)))

/-- The structured answer built by `AIService` (`AnswerResponse` fields used
by `_parse_answer_response` and the `answer_question` fallback). -/
structure AnswerResponse where
  question : Chars
  answer : Chars
  confidence : ℚ
  sources : List KBSearchResult
  has_answer : Bool
  suggestions : List String
  reasoning : String
deriving DecidableEq

/-- `AIService._parse_answer_response(ai_response, question, sources)`. -/
def _parse_answer_response (ai_response : Chars) (question : Chars)
    (sources : List KBSearchResult) : AnswerResponse :=
  let confidence := _calculate_confidence ai_response sources
  let has_answer := decide ((0.3 : ℚ) < confidence) && decide (10 < (strip ai_response).length)
  let suggestions :=
    if has_answer = false ∧ sources ≠ [] then (sources.take 3).map KBSearchResult.title
    else []
  { question := question
    answer := strip ai_response
    confidence := confidence
    sources := sources
    has_answer := has_answer
    suggestions := suggestions
    reasoning := "Based on " ++ toString sources.length ++ " knowledge base articles" }

/-- `AIService.answer_question`: the generation provider's outcome is an
argument (`none` when `_generate_response` raises); the `except` branch
returns the fixed fallback `AnswerResponse` of lines 96-104. -/
def answer_question (question : Chars) (context_articles : List KBSearchResult)
    (generated : Option Chars) : AnswerResponse :=
  match generated with
  | some ai_response => _parse_answer_response ai_response question context_articles
  | none =>
    { question := question
      answer := ("I'm sorry, I couldn't process your question at the moment. " ++
                 "Please try again later.").toList
      confidence := 0
      sources := context_articles
      has_answer := false
      suggestions := []
      reasoning := "AI service error" }

/-- Python slice-index normalization: a negative index counts from the end
of the list, and indices clamp to `[0, len]`. -/
def pyNormIdx (len : Nat) (i : Int) : Nat :=
  if i < 0 then ((len : Int) + i).toNat else min i.toNat len

/-- Python `l[a:b]` for integer bounds. -/
def pySlice (l : Chars) (a b : Int) : Chars :=
  let s := pyNormIdx l.length a
  let e := pyNormIdx l.length b
  (l.drop s).take (e - s)

/-- The largest index `j` with `start ≤ j < stop` and `l[j] = ' '`. -/
def lastSpaceAux (l : Chars) (start : Nat) : Nat → Option Nat
  | 0 => none
  | stop + 1 =>
    if start ≤ stop ∧ l[stop]? = some ' ' then some stop
    else lastSpaceAux l start stop

/-- Python `l.rfind(' ', a, b)`: `some j` at the found index, `none` for the
`-1` of a miss; the bounds normalize like slice indices. -/
def pyRfindSpace (l : Chars) (a b : Int) : Option Nat :=
  lastSpaceAux l (pyNormIdx l.length a) (pyNormIdx l.length b)

/-- Lines 103-110 of `EmbeddingService.chunk_text`: the tentative end
`start + chunk_size`; when it is before the text's end, Python computes
`last_space = text.rfind(' ', start, end)` — `-1` on a miss — and the
`last_space > start` comparison pulls the end back to `last_space` whenever
it holds.  The `-1` miss sentinel takes part in that comparison, so a cursor
`start ≤ -2` pins the end to `-1` (see `chunk_text_negative_cursor_loops`). -/
def chunkEnd (text : Chars) (chunk_size : Nat) (start : Int) : Int :=
  let e := start + chunk_size
  if e < (text.length : Int) then
    let last_space : Int :=
      match pyRfindSpace text start e with
      | some j => (j : Int)
      | none => -1
    if start < last_space then last_space else e
  else e

/-- The `while start < len(text)` loop of `chunk_text` (lines 102-119), with
explicit fuel: `none` means the fuel ran out before the loop finished, so a
run returning `none` for every fuel is a non-terminating run. -/
def chunkLoop (text : Chars) (chunk_size overlap : Nat) :
    Nat → Int → List Chars → Option (List Chars)
  | 0, _, _ => none
  | fuel + 1, start, chunks =>
    if start < (text.length : Int) then
      let e := chunkEnd text chunk_size start
      let chunk := strip (pySlice text start e)
      let chunks' := if chunk = [] then chunks else chunks ++ [chunk]
      let start' := e - overlap
      if (text.length : Int) ≤ start' then some chunks'
      else chunkLoop text chunk_size overlap fuel start' chunks'
    else some chunks

/-- `EmbeddingService.chunk_text(text, chunk_size, overlap)`: a `none` or `0`
argument falls back to the configured default (`CHUNK_SIZE = 512`,
`CHUNK_OVERLAP = 50`) through Python's `or`. -/
def chunk_text (text : Chars) (chunk_size overlap : Option Nat) (fuel : Nat) :
    Option (List Chars) :=
  let size := match chunk_size with | some n => if n = 0 then 512 else n | none => 512
  let ov := match overlap with | some n => if n = 0 then 50 else n | none => 50
  if text.length ≤ size then some [text]
  else chunkLoop text size ov fuel 0 []

/-- Whether every cursor value the loop visits from `start` within `fuel`
steps is non-negative.  Where this is `false`, Python's negative indices
take over: a cursor of `-1` gives a wrapped, empty window that can jump
past characters (`chunk_text_negative_cursor_skips`), and a cursor `≤ -2`
pins the end to `rfind`'s `-1` sentinel and the loop never terminates
(`chunk_text_negative_cursor_loops`). -/
def cursorsNonneg (text : Chars) (chunk_size overlap : Nat) :
    Nat → Int → Bool
  | 0, _ => true
  | fuel + 1, start =>
    if start < (text.length : Int) then
      let start' := chunkEnd text chunk_size start - overlap
      decide (0 ≤ start') &&
        (if (text.length : Int) ≤ start' then true
         else cursorsNonneg text chunk_size overlap fuel start')
    else true

/-- Python `hay.find(needle)` for a non-empty or empty needle: the least
position where `needle` starts in `hay`, `none` for the `-1` of a miss. -/
def findSub : Chars → Chars → Option Nat
  | _, [] => some 0
  | [], _ :: _ => none
  | h :: t, n :: m =>
    if (n :: m).isPrefixOf (h :: t) then some 0
    else (findSub t (n :: m)).map (· + 1)

/-- `SearchService._generate_snippet(content, query, max_length)`. -/
def _generate_snippet (content query : Chars) (max_length : Nat) : Chars :=
  if content = [] ∨ query = [] then
    if max_length < content.length then content.take max_length ++ "...".toList
    else content
  else
    let lower_content := lowerStr content
    let lower_query := lowerStr query
    match findSub lower_content lower_query with
    | none =>
      if max_length < content.length then content.take max_length ++ "...".toList
      else content
    | some pos =>
      let start := pos - max_length / 4
      let e := min content.length (start + max_length)
      let snippet := (content.drop start).take (e - start)
      let snippet := if 0 < start then "...".toList ++ snippet else snippet
      if e < content.length then snippet ++ "...".toList else snippet

/-- The value inside a Qdrant `MatchValue` built by
`_build_filter_conditions`: a string or a boolean. -/
inductive FilterValue where
  | str (s : String)
  | boolean (b : Bool)
deriving DecidableEq

/-- A Qdrant match specification as the filter builder uses it:
`MatchValue(value=v)` or `MatchAny(any=vs)`. -/
inductive MatchSpec where
  | matchValue (v : FilterValue)
  | matchAny (vs : List String)
deriving DecidableEq

/-- A Qdrant `FieldCondition`; the `match` keyword argument is the field
`matchSpec` here (`match` is reserved in Lean). -/
structure FieldCondition where
  key : String
  matchSpec : MatchSpec
deriving DecidableEq

/-- A Qdrant `Filter` (`QdrantFilter`: Mathlib already names `Filter`).  `_build_filter_conditions` only ever constructs
`Filter(must=conditions)`, leaving `should` and `must_not` unset. -/
structure QdrantFilter where
  must : List FieldCondition
  should : Option (List FieldCondition) := none
  must_not : Option (List FieldCondition) := none
deriving DecidableEq

/-- The fields of `KBSearchRequest` that `search_articles` and
`_build_filter_conditions` read. -/
structure KBSearchRequest where
  query : Chars
  tenant_id : String
  project_id : String
  public_only : Bool
  status : List String
  tags : List String
  limit : Nat
  offset : Nat
deriving DecidableEq

/-- The fields of `SimilarityRequest` that `search_similar` reads. -/
structure SimilarityRequest where
  text : Chars
  tenant_id : String
  project_id : String
  limit : Nat
  threshold : ℚ
deriving DecidableEq

/-- `SearchService._build_filter_conditions(tenant_id, project_id, request)`
(lines 201-239); Python's `str(...)` on an already-string id is the
identity, and `if request.status:` / `if request.tags:` test non-emptiness. -/
def _build_filter_conditions (tenant_id project_id : String)
    (request : Option KBSearchRequest) : QdrantFilter :=
  let conditions : List FieldCondition :=
    [⟨"tenant_id", .matchValue (.str tenant_id)⟩,
     ⟨"project_id", .matchValue (.str project_id)⟩]
  let conditions :=
    match request with
    | none => conditions
    | some req =>
      let conditions :=
        if req.public_only then
          conditions ++ [⟨"is_public", .matchValue (.boolean true)⟩]
        else conditions
      let conditions :=
        if req.status ≠ [] then conditions ++ [⟨"status", .matchAny req.status⟩]
        else conditions
      if req.tags ≠ [] then conditions ++ [⟨"tags", .matchAny req.tags⟩]
      else conditions
  { must := conditions }

/-- The filter `search_similar` (line 114) passes to the vector search: it
calls `_build_filter_conditions` without the optional request. -/
def search_similar_filter (request : SimilarityRequest) : QdrantFilter :=
  _build_filter_conditions request.tenant_id request.project_id none

/-- The filter `search_articles` (line 152) passes to the vector search: it
calls `_build_filter_conditions` with the request. -/
def search_articles_filter (request : KBSearchRequest) : QdrantFilter :=
  _build_filter_conditions request.tenant_id request.project_id (some request)

/-- A value stored in a Qdrant payload. -/
inductive PayloadValue where
  | str (s : Chars)
  | nat (n : Nat)
  | boolean (b : Bool)
deriving DecidableEq

/-- The payload dict `index_article` stores (lines 75-79):
`{"title": title, "content": content, **metadata}` — a key of `metadata`
overrides the literal entries, as in Python dict construction. -/
def index_article_payload (title content : Chars)
    (metadata : List (String × PayloadValue)) : String → Option PayloadValue :=
  fun key =>
    match metadata.lookup key with
    | some v => some v
    | none =>
      if key = "title" then some (.str title)
      else if key = "content" then some (.str content)
      else none

/-- `np.dot` on two float vectors. -/
def npDot (v w : List ℝ) : ℝ := (List.zipWith (fun x y => x * y) v w).sum

/-- `np.linalg.norm`: the Euclidean norm, the real square root of the sum of
squares. -/
noncomputable def npNorm (v : List ℝ) : ℝ :=
  Real.sqrt ((v.map (fun x => x * x)).sum)

/-- `EmbeddingService.compute_similarity(embedding1, embedding2)`
(lines 61-75): a zero norm short-circuits to `0.0` before the division. -/
noncomputable def compute_similarity (embedding1 embedding2 : List ℝ) : ℝ :=
  let dot_product := npDot embedding1 embedding2
  let norm1 := npNorm embedding1
  let norm2 := npNorm embedding2
  if norm1 = 0 ∨ norm2 = 0 then 0 else dot_product / (norm1 * norm2)

theorem uncertaintyPenalty_eq_if (ps : List Chars) (r : Chars) :
    uncertaintyPenalty ps r = if ps.any (fun p => containsSub r p) then 0.2 else 0 := by
  induction ps with
  | nil => rfl
  | cons p ps ih =>
    by_cases h : containsSub r p
    · simp [uncertaintyPenalty, h]
    · simp [uncertaintyPenalty, h, ih]

theorem confidence_eq_spec (response : Chars) (sources : List KBSearchResult) :
    _calculate_confidence response sources = confidenceSpec response sources := by
  unfold _calculate_confidence confidenceSpec
  rw [uncertaintyPenalty_eq_if]
  split_ifs <;> ring_nf

/-- C3: for every response text and every list of sources, the confidence
score of `_calculate_confidence` equals the clamp to `[0,1]` of: `0.5` base,
plus `0.1` for length > 50, plus another `0.1` for length > 100, plus the
mean source score times `0.3` for non-empty sources, minus `0.2` when the
lowercased response contains an uncertainty phrase (subtracted at most
once), which is `confidenceSpec`. -/
theorem calculate_confidence_formula (response : Chars) (sources : List KBSearchResult) :
    _calculate_confidence response sources = confidenceSpec response sources :=
  confidence_eq_spec response sources

theorem score_bonus_bounds (sources : List KBSearchResult)
    (hs : ∀ s ∈ sources, 0 ≤ s.score ∧ s.score ≤ 1) :
    0 ≤ (if sources ≠ [] then
          (sources.map KBSearchResult.score).sum / (sources.length : ℚ) * 0.3 else 0) ∧
    (if sources ≠ [] then
          (sources.map KBSearchResult.score).sum / (sources.length : ℚ) * 0.3 else 0)
      ≤ 0.3 := by
  split_ifs with h
  · have hlen : 0 < (sources.length : ℚ) := by
      have : sources.length ≠ 0 := fun h0 => h (List.length_eq_zero.mp h0)
      positivity
    have hsum0 : 0 ≤ (sources.map KBSearchResult.score).sum := by
      apply List.sum_nonneg
      intro x hx
      obtain ⟨s, hsmem, rfl⟩ := List.mem_map.mp hx
      exact (hs s hsmem).1
    have hsum1 : (sources.map KBSearchResult.score).sum ≤ (sources.length : ℚ) := by
      have h1 := List.sum_le_card_nsmul (sources.map KBSearchResult.score) 1 ?_
      · simpa [nsmul_eq_mul] using h1
      · intro x hx
        obtain ⟨s, hsmem, rfl⟩ := List.mem_map.mp hx
        exact (hs s hsmem).2
    constructor
    · have := div_nonneg hsum0 hlen.le
      linarith
    · have := (div_le_one hlen).mpr hsum1
      linarith
  · norm_num

/-- C5: two responses of the same length over the same sources with scores
in `[0,1]`, one containing an uncertainty phrase and the other none: the
phrase-containing confidence is exactly `0.2` below the phrase-free one,
clamped at `0`. -/
theorem confidence_uncertainty_drop (r1 r2 : Chars) (sources : List KBSearchResult)
    (hlen : r1.length = r2.length)
    (hs : ∀ s ∈ sources, 0 ≤ s.score ∧ s.score ≤ 1)
    (h1 : uncertainty_phrases.any (fun p => containsSub (lowerStr r1) p) = true)
    (h2 : uncertainty_phrases.any (fun p => containsSub (lowerStr r2) p) = false) :
    _calculate_confidence r1 sources = max 0 (_calculate_confidence r2 sources - 0.2) := by
  rw [confidence_eq_spec, confidence_eq_spec]
  unfold confidenceSpec
  have e1 : (if uncertainty_phrases.any (fun p => containsSub (lowerStr r1) p)
      then (0.2 : ℚ) else 0) = 0.2 := by simp [h1]
  have e2 : (if uncertainty_phrases.any (fun p => containsSub (lowerStr r2) p)
      then (0.2 : ℚ) else 0) = 0 := by simp [h2]
  rw [e1, e2, hlen, sub_zero]
  have hA := score_bonus_bounds sources hs
  set A := (if sources ≠ [] then
      (sources.map KBSearchResult.score).sum / (sources.length : ℚ) * 0.3 else 0) with hAdef
  set b1 := (if 50 < r2.length then (0.1 : ℚ) else 0) with hb1def
  set b2 := (if 100 < r2.length then (0.1 : ℚ) else 0) with hb2def
  have hb1 : 0 ≤ b1 ∧ b1 ≤ 0.1 := by rw [hb1def]; split_ifs <;> norm_num
  have hb2 : 0 ≤ b2 ∧ b2 ≤ 0.1 := by rw [hb2def]; split_ifs <;> norm_num
  have hS1 : (0.3 : ℚ) ≤ 0.5 + b1 + b2 + A - 0.2 := by linarith [hA.1]
  have hS2 : (0.5 : ℚ) + b1 + b2 + A ≤ 1 := by linarith [hA.2, hb1.2, hb2.2]
  rw [min_eq_right (by linarith : 0.5 + b1 + b2 + A - 0.2 ≤ (1 : ℚ)),
    min_eq_right hS2,
    max_eq_right (by linarith : (0 : ℚ) ≤ 0.5 + b1 + b2 + A - 0.2),
    max_eq_right (by linarith [hA.1, hb1.1, hb2.1] : (0 : ℚ) ≤ 0.5 + b1 + b2 + A),
    max_eq_right (by linarith : (0 : ℚ) ≤ 0.5 + b1 + b2 + A - 0.2)]

/-- Witness for C5 at a concrete input: `"not sure"` against an
eight-character phrase-free response over no sources. -/
theorem confidence_uncertainty_drop_witness :
    _calculate_confidence "not sure".toList [] =
      max 0 (_calculate_confidence "xxxxxxxx".toList [] - 0.2) :=
  confidence_uncertainty_drop "not sure".toList "xxxxxxxx".toList []
    (by decide) (by simp) (by decide) (by decide)

theorem dropWhile_head_not {α : Type} (p : α → Bool) (l : List α) (x : α)
    (h : (l.dropWhile p).head? = some x) : p x = false := by
  have h2 := List.head?_dropWhile_not p l
  rw [h] at h2
  exact h2

theorem dropWhile_eq_self_of_head {α : Type} (p : α → Bool) (l : List α)
    (h : ∀ x, l.head? = some x → p x = false) : l.dropWhile p = l := by
  cases l with
  | nil => rfl
  | cons a t => simp [List.dropWhile_cons, h a rfl]

theorem getLast?_dropWhile {α : Type} (p : α → Bool) (l : List α)
    (h : l.dropWhile p ≠ []) : (l.dropWhile p).getLast? = l.getLast? := by
  obtain ⟨t, ht⟩ := List.dropWhile_suffix (l := l) p
  conv_rhs => rw [← ht]
  rw [List.getLast?_append_of_ne_nil t h]

theorem strip_idem (l : Chars) : strip (strip l) = strip l := by
  unfold strip
  have h1 : ((l.dropWhile Char.isWhitespace).reverse.dropWhile
      Char.isWhitespace).reverse.dropWhile Char.isWhitespace =
      ((l.dropWhile Char.isWhitespace).reverse.dropWhile Char.isWhitespace).reverse := by
    apply dropWhile_eq_self_of_head
    intro x hx
    rw [List.head?_reverse] at hx
    by_cases hnil : (l.dropWhile Char.isWhitespace).reverse.dropWhile Char.isWhitespace = []
    · rw [hnil] at hx; cases hx
    · rw [getLast?_dropWhile _ _ hnil, List.getLast?_reverse] at hx
      exact dropWhile_head_not _ _ _ hx
  rw [h1, List.reverse_reverse]
  have h2 : ((l.dropWhile Char.isWhitespace).reverse.dropWhile Char.isWhitespace).dropWhile
      Char.isWhitespace = (l.dropWhile Char.isWhitespace).reverse.dropWhile Char.isWhitespace := by
    apply dropWhile_eq_self_of_head
    intro x hx
    exact dropWhile_head_not _ _ _ hx
  rw [h2]

/-- Counterexample to C4 as stated: on a generation failure with one source,
the fallback answer has `has_answer = false` and non-empty sources, yet its
`suggestions` list is empty instead of holding the source's title. -/
theorem answer_question_fallback_counterexample :
    (answer_question [] [⟨"Guide", 1⟩] none).has_answer = false ∧
    (answer_question [] [⟨"Guide", 1⟩] none).sources ≠ [] ∧
    (answer_question [] [⟨"Guide", 1⟩] none).suggestions ≠
      ((([⟨"Guide", 1⟩] : List KBSearchResult).take 3).map KBSearchResult.title) := by
  refine ⟨rfl, ?_, ?_⟩ <;> simp [answer_question]

/-- C4 amended: `has_answer` is true only when the confidence exceeds `0.3`
and the trimmed answer is longer than 10 characters (this also holds for the
generation-failure fallback); and when `has_answer` is false with non-empty
sources, `suggestions` holds the titles of up to the first 3 sources on the
normal parse path (`generated = some r`) — the fallback instead leaves
`suggestions` empty. -/
theorem answer_question_invariants (question : Chars) (arts : List KBSearchResult)
    (generated : Option Chars) :
    ((answer_question question arts generated).has_answer = true →
      0.3 < (answer_question question arts generated).confidence ∧
      10 < (strip (answer_question question arts generated).answer).length) ∧
    (∀ r, generated = some r →
      (answer_question question arts generated).has_answer = false → arts ≠ [] →
      (answer_question question arts generated).suggestions =
        (arts.take 3).map KBSearchResult.title) := by
  cases generated with
  | none =>
    constructor
    · intro h
      exact absurd h (by simp [answer_question])
    · intro r hr
      cases hr
  | some r =>
    constructor
    · intro h
      simp only [answer_question, _parse_answer_response] at h ⊢
      rw [Bool.and_eq_true, decide_eq_true_iff, decide_eq_true_iff] at h
      exact ⟨h.1, by rw [strip_idem]; exact h.2⟩
    · intro s hs hha hne
      cases hs
      simp only [answer_question, _parse_answer_response] at hha ⊢
      rw [if_pos ⟨hha, hne⟩]

/-- Witness for C4 at a concrete input: a two-character response over one
source yields `has_answer = false` and the source title as suggestion. -/
theorem answer_question_invariants_witness :
    (answer_question [] [⟨"Guide", 1⟩] (some "no".toList)).suggestions = ["Guide"] := by
  have h := answer_question_invariants [] [⟨"Guide", 1⟩] (some "no".toList)
  have hha : (answer_question [] [⟨"Guide", 1⟩] (some "no".toList)).has_answer = false := by
    have h10 : ¬ (10 < (strip "no".toList).length) := by decide
    simp only [answer_question, _parse_answer_response]
    rw [decide_eq_false h10, Bool.and_false]
  exact h.2 "no".toList rfl hha (by simp)

theorem chunkLoop_ab_stuck (fuel : Nat) :
    ∀ acc, chunkLoop "ab cdefgh".toList 5 2 fuel 0 acc = none := by
  induction fuel with
  | zero => intro acc; rfl
  | succ n ih =>
    intro acc
    have h : chunkLoop "ab cdefgh".toList 5 2 (n + 1) 0 acc
        = chunkLoop "ab cdefgh".toList 5 2 n 0 (acc ++ ["ab".toList]) := rfl
    rw [h]
    exact ih (acc ++ ["ab".toList])

/-- C1 fails on the code: on `"ab cdefgh"` with `chunk_size = 5` and
`overlap = 2` (`0 ≤ overlap < chunk_size`), the word-boundary pull-back sets
`end = 2` and `start = end - overlap = 0` again, so the loop never advances:
`chunk_text` returns `none` for every fuel, i.e. the `while` loop never
terminates, contradicting the claimed guaranteed 1-character progress. -/
theorem chunk_text_nonterminating (fuel : Nat) :
    chunk_text "ab cdefgh".toList (some 5) (some 2) fuel = none := by
  have h : chunk_text "ab cdefgh".toList (some 5) (some 2) fuel
      = chunkLoop "ab cdefgh".toList 5 2 fuel 0 [] := rfl
  rw [h]
  exact chunkLoop_ab_stuck fuel []

theorem length_dropWhile_le {α : Type} (p : α → Bool) (l : List α) :
    (l.dropWhile p).length ≤ l.length :=
  (List.dropWhile_suffix p).sublist.length_le

theorem length_strip_le (l : Chars) : (strip l).length ≤ l.length := by
  unfold strip
  have h1 := length_dropWhile_le Char.isWhitespace l
  have h2 := length_dropWhile_le Char.isWhitespace (l.dropWhile Char.isWhitespace).reverse
  simp only [List.length_reverse] at h2 ⊢
  omega

theorem mem_dropWhile_of_mem {α : Type} (p : α → Bool) (l : List α) (a : α)
    (ha : a ∈ l) (hp : p a = false) : a ∈ l.dropWhile p := by
  induction l with
  | nil => cases ha
  | cons b t ih =>
    rw [List.dropWhile_cons]
    by_cases hb : p b = true
    · rw [if_pos hb]
      rcases List.mem_cons.mp ha with h | h
      · rw [h] at hp; rw [hp] at hb; cases hb
      · exact ih h
    · rw [if_neg hb]
      exact ha

theorem mem_strip (l : Chars) (a : Char) (ha : a ∈ l)
    (hp : a.isWhitespace = false) : a ∈ strip l := by
  unfold strip
  rw [List.mem_reverse]
  apply mem_dropWhile_of_mem _ _ _ _ hp
  rw [List.mem_reverse]
  exact mem_dropWhile_of_mem _ _ _ ha hp

theorem lastSpaceAux_bounds (l : Chars) (s : Nat) :
    ∀ stop j, lastSpaceAux l s stop = some j → s ≤ j ∧ j < stop := by
  intro stop
  induction stop with
  | zero => intro j h; cases h
  | succ n ih =>
    intro j h
    rw [lastSpaceAux] at h
    split_ifs at h with hc
    · cases h; exact ⟨hc.1, Nat.lt_succ_self n⟩
    · have := ih j h; omega

theorem pyNormIdx_le (len : Nat) (i : Int) : pyNormIdx len i ≤ len := by
  unfold pyNormIdx
  split_ifs <;> omega

theorem chunkEnd_norm_le (text : Chars) (size : Nat) (start : Int)
    (hstart : -(size : Int) ≤ start) :
    pyNormIdx text.length (chunkEnd text size start)
      ≤ pyNormIdx text.length start + size := by
  unfold chunkEnd
  by_cases h0 : start + (size : Int) < (text.length : Int)
  · rw [if_pos h0]
    cases hf : pyRfindSpace text start (start + size) with
    | none =>
      dsimp only
      split_ifs with h
      · unfold pyNormIdx
        split_ifs <;> omega
      · unfold pyNormIdx
        split_ifs <;> omega
    | some j =>
      dsimp only
      unfold pyRfindSpace at hf
      have hj := lastSpaceAux_bounds text _ _ j hf
      have hstop := pyNormIdx_le text.length (start + size)
      split_ifs with hgt
      · unfold pyNormIdx at hj ⊢
        split_ifs at hj ⊢ <;> omega
      · unfold pyNormIdx
        split_ifs <;> omega
  · rw [if_neg h0]
    unfold pyNormIdx
    split_ifs <;> omega

theorem pySlice_length_le (l : Chars) (a b : Int) :
    (pySlice l a b).length ≤ pyNormIdx l.length b - pyNormIdx l.length a := by
  unfold pySlice
  simp only [List.length_take, List.length_drop]
  omega

theorem chunk_piece_length_le (text : Chars) (size : Nat) (start : Int)
    (hstart : -(size : Int) ≤ start) :
    (strip (pySlice text start (chunkEnd text size start))).length ≤ size := by
  have h1 := length_strip_le (pySlice text start (chunkEnd text size start))
  have h2 := pySlice_length_le text start (chunkEnd text size start)
  have h3 := chunkEnd_norm_le text size start hstart
  omega

theorem chunkEnd_gt (text : Chars) (size : Nat) (start : Int) (hsize : size ≠ 0) :
    start < chunkEnd text size start := by
  unfold chunkEnd
  by_cases h0 : start + (size : Int) < (text.length : Int)
  · rw [if_pos h0]
    cases pyRfindSpace text start (start + size) with
    | none =>
      dsimp only
      split_ifs with h <;> omega
    | some j =>
      dsimp only
      split_ifs with h <;> omega
  · rw [if_neg h0]; omega

theorem chunkEnd_ge_neg_one (text : Chars) (size : Nat) (start : Int)
    (hsize : size ≠ 0) : -1 ≤ chunkEnd text size start := by
  unfold chunkEnd
  by_cases h0 : start + (size : Int) < (text.length : Int)
  · rw [if_pos h0]
    cases pyRfindSpace text start (start + size) with
    | none =>
      dsimp only
      split_ifs with h <;> omega
    | some j =>
      dsimp only
      split_ifs with h <;> omega
  · rw [if_neg h0]; omega

theorem get_mem_slice (l : Chars) (s k i : Nat) (hsi : s ≤ i) (hik : i < s + k)
    (hi : i < l.length) : l[i] ∈ (l.drop s).take k := by
  have h1 : i - s < ((l.drop s).take k).length := by
    simp only [List.length_take, List.length_drop]
    omega
  have h2 : ((l.drop s).take k)[i - s] = l[i] := by
    rw [List.getElem_take, List.getElem_drop]
    congr 1
    omega
  rw [← h2]
  exact List.getElem_mem h1

theorem chunkLoop_acc_mem (text : Chars) (size ov : Nat) :
    ∀ fuel (start : Int) acc chunks,
      chunkLoop text size ov fuel start acc = some chunks →
      ∀ c ∈ acc, c ∈ chunks := by
  intro fuel
  induction fuel with
  | zero =>
    intro start acc chunks h
    simp [chunkLoop] at h
  | succ n ih =>
    intro start acc chunks h c hc
    simp only [chunkLoop] at h
    by_cases h1 : start < (text.length : Int)
    · rw [if_pos h1] at h
      set e := chunkEnd text size start with he
      set chunk := strip (pySlice text start e) with hchunk
      set acc' := if chunk = [] then acc else acc ++ [chunk] with hacc'
      have hmem : c ∈ acc' := by
        rw [hacc']
        split_ifs
        · exact hc
        · exact List.mem_append_left _ hc
      by_cases h2 : (text.length : Int) ≤ e - ov
      · rw [if_pos h2] at h
        rw [← Option.some.inj h]
        exact hmem
      · rw [if_neg h2] at h
        exact ih _ _ _ h c hmem
    · rw [if_neg h1] at h
      rw [← Option.some.inj h]
      exact hc

theorem chunkLoop_length_le (text : Chars) (size ov : Nat) (hsize : size ≠ 0)
    (hov : ov < size) :
    ∀ fuel (start : Int) acc chunks,
      -1 - (ov : Int) ≤ start →
      chunkLoop text size ov fuel start acc = some chunks →
      (∀ c ∈ acc, c.length ≤ size) → ∀ c ∈ chunks, c.length ≤ size := by
  intro fuel
  induction fuel with
  | zero =>
    intro start acc chunks _ h
    simp [chunkLoop] at h
  | succ n ih =>
    intro start acc chunks hinv h hacc c hc
    simp only [chunkLoop] at h
    by_cases h1 : start < (text.length : Int)
    · rw [if_pos h1] at h
      have hge := chunkEnd_ge_neg_one text size start hsize
      set e := chunkEnd text size start with he
      set chunk := strip (pySlice text start e) with hchunk
      set acc' := if chunk = [] then acc else acc ++ [chunk] with hacc'
      have hacc' : ∀ d ∈ acc', d.length ≤ size := by
        rw [hacc']
        split_ifs
        · exact hacc
        · intro d hd
          rcases List.mem_append.mp hd with hd | hd
          · exact hacc d hd
          · rw [List.mem_singleton.mp hd, hchunk, he]
            exact chunk_piece_length_le text size start (by omega)
      by_cases h2 : (text.length : Int) ≤ e - ov
      · rw [if_pos h2] at h
        exact hacc' c (by rw [Option.some.inj h]; exact hc)
      · rw [if_neg h2] at h
        exact ih _ _ _ (by omega) h hacc' c hc
    · rw [if_neg h1] at h
      exact hacc c (by rw [Option.some.inj h]; exact hc)

theorem chunkLoop_coverage (text : Chars) (size ov : Nat) (hsize : size ≠ 0) :
    ∀ fuel (start : Int) acc chunks,
      0 ≤ start →
      chunkLoop text size ov fuel start acc = some chunks →
      cursorsNonneg text size ov fuel start = true →
      ∀ i (hi : i < text.length), start.toNat ≤ i →
        (text[i]).isWhitespace = false → ∃ c ∈ chunks, text[i] ∈ c := by
  intro fuel
  induction fuel with
  | zero =>
    intro start acc chunks _ h
    simp [chunkLoop] at h
  | succ n ih =>
    intro start acc chunks hstart h hnn i hi hsi hws
    by_cases h1 : start < (text.length : Int)
    · simp only [chunkLoop] at h
      rw [if_pos h1] at h
      simp only [cursorsNonneg] at hnn
      rw [if_pos h1] at hnn
      rw [Bool.and_eq_true, decide_eq_true_iff] at hnn
      obtain ⟨hnn0, hnnrest⟩ := hnn
      set e := chunkEnd text size start with he
      have hegt : start < e := by rw [he]; exact chunkEnd_gt text size start hsize
      set chunk := strip (pySlice text start e) with hchunk
      set acc' := if chunk = [] then acc else acc ++ [chunk] with hacc'
      by_cases hwin : i < min e.toNat text.length
      · have hnorm_s : pyNormIdx text.length start = start.toNat := by
          unfold pyNormIdx; split_ifs <;> omega
        have hnorm_e : pyNormIdx text.length e = min e.toNat text.length := by
          unfold pyNormIdx; split_ifs <;> omega
        have hslice : text[i] ∈ pySlice text start e := by
          simp only [pySlice]
          rw [hnorm_s, hnorm_e]
          exact get_mem_slice text start.toNat _ i hsi (by omega) hi
        have hchunkmem : text[i] ∈ chunk := by
          rw [hchunk]
          exact mem_strip _ _ hslice hws
        have hne : chunk ≠ [] := fun hnil => by rw [hnil] at hchunkmem; cases hchunkmem
        have haccmem : chunk ∈ acc' := by
          rw [hacc', if_neg hne]
          exact List.mem_append_right _ (List.mem_singleton_self chunk)
        by_cases h2 : (text.length : Int) ≤ e - ov
        · rw [if_pos h2] at h
          refine ⟨chunk, ?_, hchunkmem⟩
          rw [← Option.some.inj h]
          exact haccmem
        · rw [if_neg h2] at h
          exact ⟨chunk, chunkLoop_acc_mem text size ov n _ _ _ h chunk haccmem, hchunkmem⟩
      · by_cases h2 : (text.length : Int) ≤ e - ov
        · exfalso; omega
        · rw [if_neg h2] at h
          rw [if_neg h2] at hnnrest
          exact ih (e - ov) acc' chunks hnn0 h hnnrest i hi (by omega) hws
    · exfalso
      omega

/-- Counterexample to C2 as stated: `chunk_text "aaaa bbb\t" 8 1`
(`len(text) > chunk_size`, `0 ≤ overlap < chunk_size`) terminates with
chunks `["aaaa", "a bbb"]`, and the tab character of the input appears in
no chunk — `strip` drops boundary whitespace. -/
theorem chunk_text_counterexample :
    chunk_text "aaaa bbb\t".toList (some 8) (some 1) 20 =
      some ["aaaa".toList, "a bbb".toList] ∧
    '\t' ∈ "aaaa bbb\t".toList ∧
    '\t' ∉ "aaaa".toList ∧ '\t' ∉ "a bbb".toList := by decide

/-- C2 amended: for text longer than `chunk_size` and `0 < overlap <
chunk_size`, whenever the chunking loop terminates, no returned chunk
exceeds `chunk_size` in length; and whenever additionally the cursor stays
non-negative throughout, every non-whitespace character of the input appears
in some chunk.  Whitespace stripped at chunk boundaries can be dropped, on
some inputs the loop does not terminate at all
(`chunk_text_nonterminating`, `chunk_text_negative_cursor_loops`), and a
cursor dipping to `-1` can skip characters
(`chunk_text_negative_cursor_skips`). -/
theorem chunk_text_coverage (text : Chars) (size ov fuel : Nat) (chunks : List Chars)
    (hsize : size ≠ 0) (hov : ov ≠ 0) (hov2 : ov < size) (hlen : size < text.length)
    (h : chunk_text text (some size) (some ov) fuel = some chunks) :
    (∀ c ∈ chunks, c.length ≤ size) ∧
    (cursorsNonneg text size ov fuel 0 = true →
      ∀ ch ∈ text, ch.isWhitespace = false → ∃ c ∈ chunks, ch ∈ c) := by
  have h' : chunkLoop text size ov fuel 0 [] = some chunks := by
    simp only [chunk_text] at h
    rw [if_neg hsize, if_neg hov, if_neg (not_le.mpr hlen)] at h
    exact h
  refine ⟨chunkLoop_length_le text size ov hsize hov2 fuel 0 [] chunks (by omega) h'
    (by simp), ?_⟩
  intro hnn ch hch hws
  obtain ⟨i, hi, rfl⟩ := List.mem_iff_getElem.mp hch
  exact chunkLoop_coverage text size ov hsize fuel 0 [] chunks le_rfl h' hnn i hi
    (Nat.zero_le i) hws

/-- Witness for C2 at a concrete input: chunking
`"the quick brown fox jumps"` with `chunk_size = 10`, `overlap = 2`
terminates with non-negative cursors and the character `'q'` is covered. -/
theorem chunk_text_coverage_witness :
    ∃ c ∈ ["the quick".toList, "ck brown".toList, "wn fox".toList, "ox jumps".toList],
      'q' ∈ c := by
  have h := chunk_text_coverage "the quick brown fox jumps".toList 10 2 50
    ["the quick".toList, "ck brown".toList, "wn fox".toList, "ox jumps".toList]
    (by decide) (by decide) (by decide) (by decide) (by decide)
  exact h.2 (by decide) 'q' (by decide) (by decide)

/-- A terminating run whose cursor dips to `-1`: on
`chunk_text("a bcdefghijklm", 9, 2)` the pull-back to the space at index 1
gives `start = 1 - 2 = -1`, that step's window `[13, 8)` is empty, the run
resumes at `8 - 2 = 6`, and the non-whitespace characters `'b'..'e'`
(indices 2-5) appear in no chunk — so the non-negative-cursor hypothesis of
`chunk_text_coverage` is necessary. -/
theorem chunk_text_negative_cursor_skips :
    chunk_text "a bcdefghijklm".toList (some 9) (some 2) 20 =
      some ["a".toList, "fghijklm".toList, "m".toList] ∧
    'b' ∈ "a bcdefghijklm".toList ∧
    'b' ∉ "a".toList ∧ 'b' ∉ "fghijklm".toList ∧ 'b' ∉ "m".toList ∧
    cursorsNonneg "a bcdefghijklm".toList 9 2 20 0 = false := by decide

theorem chunkLoop_wrap_stuck (fuel : Nat) :
    ∀ acc, chunkLoop "a bcdefghijklm".toList 9 3 fuel (-4) acc = none := by
  induction fuel with
  | zero => intro acc; rfl
  | succ n ih =>
    intro acc
    have h : chunkLoop "a bcdefghijklm".toList 9 3 (n + 1) (-4) acc
        = chunkLoop "a bcdefghijklm".toList 9 3 n (-4) (acc ++ ["jkl".toList]) := rfl
    rw [h]
    exact ih (acc ++ ["jkl".toList])

/-- A cursor `≤ -2` never recovers: on `chunk_text("a bcdefghijklm", 9, 3)`
the cursor goes `0 → -2 → -4 → -4 → ...` — from `-2` on, `rfind` misses,
its `-1` sentinel satisfies `last_space > start`, the end is pinned to `-1`
and the cursor is stuck at `-1 - overlap = -4`, appending `"jkl"` forever:
the loop never terminates. -/
theorem chunk_text_negative_cursor_loops (fuel : Nat) :
    chunk_text "a bcdefghijklm".toList (some 9) (some 3) fuel = none := by
  match fuel with
  | 0 => rfl
  | 1 => rfl
  | 2 => rfl
  | m + 3 =>
    have h : chunk_text "a bcdefghijklm".toList (some 9) (some 3) (m + 3)
        = chunkLoop "a bcdefghijklm".toList 9 3 (m + 1) (-4)
            ["a".toList, "l".toList] := rfl
    rw [h]
    exact chunkLoop_wrap_stuck (m + 1) ["a".toList, "l".toList]

theorem findSub_some_prefix (needle : Chars) :
    ∀ hay pos, findSub hay needle = some pos → needle <+: hay.drop pos := by
  intro hay
  induction hay with
  | nil =>
    intro pos h
    cases needle with
    | nil =>
      simp only [findSub] at h
      cases h
      simp
    | cons n m =>
      simp only [findSub] at h
      cases h
  | cons a t ih =>
    intro pos h
    cases needle with
    | nil =>
      simp only [findSub] at h
      cases h
      simp
    | cons n m =>
      simp only [findSub] at h
      by_cases hp : (n :: m).isPrefixOf (a :: t)
      · rw [if_pos hp] at h
        cases h
        simpa using List.isPrefixOf_iff_prefix.mp hp
      · rw [if_neg hp] at h
        cases hf : findSub t (n :: m) with
        | none => rw [hf] at h; cases h
        | some p =>
          rw [hf] at h
          cases h
          exact ih p hf

theorem findSub_isSome_of_infix (needle : Chars) :
    ∀ hay, needle <:+: hay → ∃ pos, findSub hay needle = some pos := by
  intro hay
  induction hay with
  | nil =>
    intro h
    cases needle with
    | nil => exact ⟨0, rfl⟩
    | cons n m =>
      rw [List.infix_nil] at h
      cases h
  | cons a t ih =>
    intro h
    cases needle with
    | nil => exact ⟨0, rfl⟩
    | cons n m =>
      by_cases hp : (n :: m).isPrefixOf (a :: t)
      · exact ⟨0, by simp only [findSub]; rw [if_pos hp]⟩
      · have hinf : (n :: m) <:+: t := by
          rcases List.infix_cons_iff.mp h with hpre | hinf
          · exact absurd (List.isPrefixOf_iff_prefix.mpr hpre) hp
          · exact hinf
        obtain ⟨p, hf⟩ := ih hinf
        refine ⟨p + 1, ?_⟩
        simp only [findSub]
        rw [if_neg hp, hf]
        rfl

/-- C6 amended: for non-empty content and query with `max_length = 200`, the
snippet's length is at most `206`; and whenever the query occurs
case-insensitively in the content and the query is at most 150 characters
(`max_length - max_length/4`), the snippet contains the matched substring.
A longer query can overrun the fixed window (see the counterexample). -/
theorem generate_snippet_spec (content query : Chars) (hc : content ≠ []) (hq : query ≠ []) :
    (_generate_snippet content query 200).length ≤ 206 ∧
    (lowerStr query <:+: lowerStr content → query.length ≤ 150 →
      ∃ pos, findSub (lowerStr content) (lowerStr query) = some pos ∧
        (content.drop pos).take query.length <:+: _generate_snippet content query 200) := by
  have hcq : ¬ (content = [] ∨ query = []) := by
    rintro (h | h)
    exacts [hc h, hq h]
  have hdots : ("...".toList).length = 3 := rfl
  constructor
  · simp only [_generate_snippet]
    rw [if_neg hcq]
    cases hfind : findSub (lowerStr content) (lowerStr query) with
    | none =>
      dsimp only
      split_ifs with h
      · simp only [List.length_append, List.length_take, hdots]
        omega
      · omega
    | some pos =>
      dsimp only
      split_ifs <;>
        simp only [List.length_append, List.length_take, List.length_drop, hdots] <;>
        omega
  · intro hinf hq150
    obtain ⟨pos, hfind⟩ := findSub_isSome_of_infix (lowerStr query) (lowerStr content) hinf
    refine ⟨pos, hfind, ?_⟩
    have hpref := findSub_some_prefix (lowerStr query) (lowerStr content) pos hfind
    have hlenq : 1 ≤ query.length := List.length_pos.mpr hq
    have hposlen : pos + query.length ≤ content.length := by
      have h1 := hpref.length_le
      simp only [List.length_drop, lowerStr, List.length_map] at h1
      omega
    simp only [_generate_snippet]
    rw [if_neg hcq, hfind]
    dsimp only
    set s := pos - 200 / 4 with hs
    set e := min content.length (s + 200) with he
    have hse : s ≤ pos := by omega
    have hpe : pos + query.length ≤ e := by omega
    have hmatch : (content.drop pos).take query.length =
        (((content.drop s).take (e - s)).drop (pos - s)).take query.length := by
      rw [List.drop_take, List.drop_drop]
      have h1 : s + (pos - s) = pos := by omega
      rw [h1]
      rw [List.take_take]
      have h2 : query.length ⊓ (e - s - (pos - s)) = query.length := by
        simp only [min_eq_left_iff]
        omega
      rw [h2]
    have hinfix_slice : (content.drop pos).take query.length <:+:
        (content.drop s).take (e - s) := by
      rw [hmatch]
      exact List.infix_iff_prefix_suffix.mpr
        ⟨((content.drop s).take (e - s)).drop (pos - s),
         List.take_prefix _ _, List.drop_suffix _ _⟩
    refine hinfix_slice.trans ?_
    split_ifs with h1 h2 h3
    · exact ⟨"...".toList, "...".toList, by simp⟩
    · exact ⟨[], "...".toList, by simp⟩
    · exact ⟨"...".toList, [], by simp⟩
    · exact ⟨[], [], by simp⟩

set_option maxRecDepth 8192 in
/-- Counterexample to C6 as stated: content and query both 201 copies of
`'a'` (non-empty, query found at position 0), yet the snippet — the first
200 characters plus a trailing ellipsis — does not contain the matched
201-character substring. -/
theorem generate_snippet_counterexample :
    findSub (lowerStr (List.replicate 201 'a')) (lowerStr (List.replicate 201 'a')) =
      some 0 ∧
    ¬ ((List.replicate 201 'a').drop 0).take 201 <:+:
        _generate_snippet (List.replicate 201 'a') (List.replicate 201 'a') 200 := by
  constructor
  · decide
  · intro h
    have hcount := (List.IsInfix.sublist h).count_le 'a'
    revert hcount
    decide

/-- Witness for C6 at a concrete input: the query `"Settings"` inside a
56-character content; the snippet contains the matched substring. -/
theorem generate_snippet_witness :
    ∃ pos, findSub
        (lowerStr "Reset your password by clicking Settings then Security.".toList)
        (lowerStr "Settings".toList) = some pos ∧
      ("Reset your password by clicking Settings then Security.".toList.drop pos).take
          ("Settings".toList.length) <:+:
        _generate_snippet "Reset your password by clicking Settings then Security.".toList
          "Settings".toList 200 := by
  have h := generate_snippet_spec
    "Reset your password by clicking Settings then Security.".toList
    "Settings".toList (by decide) (by decide)
  exact h.2 (by decide) (by decide)

/-- C7: for every tenant, project and optional request settings, the built
filter always holds the exact-match tenant condition and the exact-match
project condition, and combines conditions by conjunction only: everything
is in `must`, and `should` / `must_not` are never used. -/
theorem build_filter_conjunction (tenant_id project_id : String)
    (request : Option KBSearchRequest) :
    (⟨"tenant_id", .matchValue (.str tenant_id)⟩ : FieldCondition) ∈
      (_build_filter_conditions tenant_id project_id request).must ∧
    (⟨"project_id", .matchValue (.str project_id)⟩ : FieldCondition) ∈
      (_build_filter_conditions tenant_id project_id request).must ∧
    (_build_filter_conditions tenant_id project_id request).should = none ∧
    (_build_filter_conditions tenant_id project_id request).must_not = none := by
  cases request with
  | none =>
    exact ⟨by simp [_build_filter_conditions], by simp [_build_filter_conditions], rfl, rfl⟩
  | some req =>
    refine ⟨?_, ?_, rfl, rfl⟩ <;>
      · simp only [_build_filter_conditions]
        split_ifs <;> simp

/-- C9: the filter `search_similar` passes to the vector index holds exactly
the tenant and project conditions — never a visibility, status or tag
condition; the optional conditions enter only through the
`search_articles` path, which passes the request on to the builder. -/
theorem search_similar_filter_minimal (request : SimilarityRequest) :
    (search_similar_filter request).must =
      [⟨"tenant_id", .matchValue (.str request.tenant_id)⟩,
       ⟨"project_id", .matchValue (.str request.project_id)⟩] ∧
    (∀ c ∈ (search_similar_filter request).must,
      c.key ≠ "is_public" ∧ c.key ≠ "status" ∧ c.key ≠ "tags") ∧
    (∀ areq : KBSearchRequest, search_articles_filter areq =
      _build_filter_conditions areq.tenant_id areq.project_id (some areq)) := by
  refine ⟨rfl, ?_, fun _ => rfl⟩
  intro c hc
  have hc' : c ∈ [(⟨"tenant_id", .matchValue (.str request.tenant_id)⟩ : FieldCondition),
      ⟨"project_id", .matchValue (.str request.project_id)⟩] := hc
  rcases List.mem_cons.mp hc' with rfl | hc''
  · exact ⟨by simp, by simp, by simp⟩
  · rcases List.mem_cons.mp hc'' with rfl | hc'''
    · exact ⟨by simp, by simp, by simp⟩
    · cases hc'''

/-- C10: the payload stored by `index_article` merges `metadata` after the
`title` and `content` keys, so a metadata entry under `"title"` or
`"content"` silently overwrites the corresponding argument; without such an
entry the stored values are the arguments themselves. -/
theorem index_article_payload_merge (title content : Chars)
    (metadata : List (String × PayloadValue)) :
    (∀ v, metadata.lookup "title" = some v →
      index_article_payload title content metadata "title" = some v) ∧
    (metadata.lookup "title" = none →
      index_article_payload title content metadata "title" = some (.str title)) ∧
    (∀ v, metadata.lookup "content" = some v →
      index_article_payload title content metadata "content" = some v) ∧
    (metadata.lookup "content" = none →
      index_article_payload title content metadata "content" = some (.str content)) := by
  refine ⟨?_, ?_, ?_, ?_⟩
  · intro v hv
    simp [index_article_payload, hv]
  · intro h
    simp [index_article_payload, h]
  · intro v hv
    simp [index_article_payload, hv]
  · intro h
    simp [index_article_payload, h]

/-- Witness for C10 at a concrete input: metadata `{"title": "M"}`
overwrites the title argument `"T"`; empty metadata keeps it. -/
theorem index_article_payload_merge_witness :
    index_article_payload "T".toList "C".toList
      [("title", .str "M".toList)] "title" = some (.str "M".toList) ∧
    index_article_payload "T".toList "C".toList [] "title" =
      some (.str "T".toList) := by
  have h1 := index_article_payload_merge "T".toList "C".toList
    [("title", PayloadValue.str "M".toList)]
  have h2 := index_article_payload_merge "T".toList "C".toList []
  exact ⟨h1.1 _ rfl, h2.2.1 rfl⟩

/-- C8: on equal-length vectors, `compute_similarity` returns exactly `0.0`
when either Euclidean norm is zero (defined behavior, before any division),
and otherwise the dot product divided by the product of the norms. -/
theorem compute_similarity_spec (embedding1 embedding2 : List ℝ)
    (hlen : embedding1.length = embedding2.length) :
    (npNorm embedding1 = 0 ∨ npNorm embedding2 = 0 →
      compute_similarity embedding1 embedding2 = 0) ∧
    (npNorm embedding1 ≠ 0 → npNorm embedding2 ≠ 0 →
      compute_similarity embedding1 embedding2 =
        npDot embedding1 embedding2 / (npNorm embedding1 * npNorm embedding2)) := by
  constructor
  · intro h
    simp only [compute_similarity]
    rw [if_pos h]
  · intro h1 h2
    simp only [compute_similarity]
    rw [if_neg (not_or.mpr ⟨h1, h2⟩)]

/-- Witness for C8 at a concrete input: the zero vector against `[3, 4]`
yields similarity `0.0`. -/
theorem compute_similarity_witness :
    npNorm [(0 : ℝ), 0] = 0 ∧ compute_similarity [(0 : ℝ), 0] [(3 : ℝ), 4] = 0 := by
  have h0 : npNorm [(0 : ℝ), 0] = 0 := by
    simp [npNorm]
  have h := compute_similarity_spec [(0 : ℝ), 0] [(3 : ℝ), 4] rfl
  exact ⟨h0, h.1 (Or.inl h0)⟩
